import Mathlib

/-!
Shallow embedding of the mining-pool settlement pipeline:
share accounting (`server/bitcoin/share-processor.ts`), the Stratum
server session logic (`server/routes-fixed.ts`), and the payout batch
processor (`PayoutManager`).  Numbers are embedded as rationals,
timestamps as integers (milliseconds since the epoch).
-/

namespace MiningPool

/-- A share submission record (interface `Share` in share-processor.ts).
`timestamp` is milliseconds since the epoch; optional block fields elided. -/
structure Share where
  workerId : String
  ip : String
  timestamp : Int
  difficulty : ℚ
  isValid : Bool
  isBlock : Bool
  deriving DecidableEq

/-- `MemoryShareStorage.getWorkerValidShares`: valid shares of one worker
inside the closed time window. -/
def getWorkerValidShares (shares : List Share) (workerId : String)
    (startTime endTime : Int) : List Share :=
  shares.filter fun s =>
    s.workerId == workerId && s.isValid
      && decide (startTime ≤ s.timestamp) && decide (s.timestamp ≤ endTime)

/-- `MemoryShareStorage.getPoolValidShares`: all valid shares inside the
closed time window. -/
def getPoolValidShares (shares : List Share) (startTime endTime : Int) :
    List Share :=
  shares.filter fun s =>
    s.isValid && decide (startTime ≤ s.timestamp) && decide (s.timestamp ≤ endTime)

/-- Sum of the difficulties of a list of shares (the reduce in the source). -/
def totalDiff (l : List Share) : ℚ :=
  (l.map Share.difficulty).sum

/-- The 10-minute hashrate window, in milliseconds (source: `10 * 60 * 1000`). -/
def hashrateWindowMs : Int := 10 * 60 * 1000

/-- The 60-minute reward window, in milliseconds (source: `60 * 60 * 1000`). -/
def rewardWindowMs : Int := 60 * 60 * 1000

/-- The constant the source multiplies by: `4.295e9`
(its comment reads "2^32 shares at difficulty 1 = 4.295 billion hashes"). -/
def hashrateFactor : ℚ := 4295000000

/-- `ShareProcessor.calculateHashrates`: hashrate of one worker over the
trailing 10-minute window; `none` when the worker has no valid share in the
window (the source returns without emitting). -/
def calculateHashrates (shares : List Share) (workerId : String) (now : Int) :
    Option ℚ :=
  let startTime := now - hashrateWindowMs
  let ws := getWorkerValidShares shares workerId startTime now
  if ws.isEmpty then none
  else
    let timeWindowSeconds : ℚ := ((now - startTime : Int) : ℚ) / 1000
    some (totalDiff ws * hashrateFactor / timeWindowSeconds)

/-- `ShareProcessor.calculatePoolHashrate`: pool-wide hashrate over the
trailing 10-minute window; `0` when there is no valid share in the window. -/
def calculatePoolHashrate (shares : List Share) (now : Int) : ℚ :=
  let startTime := now - hashrateWindowMs
  let ws := getPoolValidShares shares startTime now
  if ws.isEmpty then 0
  else
    let timeWindowSeconds : ℚ := ((now - startTime : Int) : ℚ) / 1000
    totalDiff ws * hashrateFactor / timeWindowSeconds

/-- Total difficulty of a single worker's shares inside a share list
(the per-worker reduce in `calculateBlockRewards`). -/
def minerDifficultySum (l : List Share) (w : String) : ℚ :=
  totalDiff (l.filter fun s => s.workerId == w)

/-- The per-worker reward function computed by `calculateBlockRewards`:
`rewardAfterFee * (workerTotalDifficulty / totalDifficulty)`.  A worker with
no share in `allShares` has no entry in the source's record, which reads as
a zero reward; here the function is total and yields `0` in that case. -/
def rewardsFn (allShares : List Share) (blockReward feePercent : ℚ) :
    String → ℚ :=
  fun w =>
    (blockReward - blockReward * (feePercent / 100))
      * (minerDifficultySum allShares w / totalDiff allShares)

/-- The pool-wide valid shares of the trailing 60-minute reward window
(`calculateBlockRewards` lines 199–203). -/
def rewardWindowShares (shares : List Share) (now : Int) : List Share :=
  getPoolValidShares shares (now - rewardWindowMs) now

/-- `ShareProcessor.calculateBlockRewards`: the reward split over the
trailing 60-minute window.  Returns `none` when the window holds no valid
share (the source logs and skips); otherwise the pool fee together with the
per-worker reward map. -/
def calculateBlockRewards (shares : List Share) (blockReward feePercent : ℚ)
    (now : Int) : Option (ℚ × (String → ℚ)) :=
  let allShares := rewardWindowShares shares now
  if allShares.isEmpty then none
  else
    some (blockReward * (feePercent / 100), rewardsFn allShares blockReward feePercent)

/-- The set of workers appearing in a share list (the keys of the source's
per-worker grouping record). -/
def workersOf (l : List Share) : Finset String :=
  (l.map Share.workerId).toFinset

/-- `ShareProcessor.processShare`: append the share, recompute the worker's
hashrate, and compute the reward split when the share found a block. -/
def processShare (stored : List Share) (s : Share)
    (blockReward feePercent : ℚ) (now : Int) :
    List Share × Option ℚ × Option (ℚ × (String → ℚ)) :=
  let stored' := stored ++ [s]
  ( stored'
  , calculateHashrates stored' s.workerId now
  , if s.isBlock then calculateBlockRewards stored' blockReward feePercent now
    else none )

/-! ## Stratum server (`server/routes-fixed.ts`) -/

/-- The server-side state the submission path reads: the single pool-wide
network difficulty and the current job counter (`StratumServer` fields
`difficulty` and `jobId`). -/
structure ServerState where
  difficulty : ℚ
  jobId : Nat
  deriving DecidableEq

/-- The `StratumServer` field initializers: `difficulty = 1`, `jobId = 0`. -/
def initialServer : ServerState :=
  { difficulty := 1, jobId := 0 }

/-- The difficulty-refresh poll interval in milliseconds
(`initializeBlockPolling`, second `setInterval`). -/
def difficultyPollIntervalMs : Nat := 60000

/-- One tick of the difficulty poll: on success the node's value replaces
the server's; on an RPC error the value is left unchanged (the source logs
and continues). -/
def pollDifficulty (st : ServerState) (nodeResult : Except String ℚ) :
    ServerState :=
  match nodeResult with
  | .ok d => { st with difficulty := d }
  | .error _ => st

/-- `StratumServer.validateShare`: reject unless the submitted jobId equals
the string of the current job counter; otherwise the outcome is the
proof-of-work check, whose stand-in (`Math.random() > 0.05` in the source)
is passed in as `powOk`. -/
def validateShare (serverJobId : Nat) (jobIdParam : String) (powOk : Bool) :
    Bool :=
  if jobIdParam ≠ toString serverJobId then false else powOk

/-- The per-connection session data the submission path reads
(`StratumClient` fields). -/
structure ClientInfo where
  id : String
  ip : String
  extraNonce1 : String
  deriving DecidableEq

/-- What one `mining.submit` produces in `StratumServer.handleSubmit`:
the share record handed to accounting, the boolean response sent back,
and whether the handler closed the connection (it never does). -/
structure SubmitOutcome where
  share : Share
  accepted : Bool
  disconnected : Bool
  deriving DecidableEq

/-- `StratumServer.handleSubmit`: build the share record with
`difficulty: this.difficulty` (the server's pool-wide value), respond with
the validation outcome, and keep the connection open. -/
def handleSubmit (st : ServerState) (c : ClientInfo)
    (workername jobIdParam : String) (powOk : Bool) (now : Int) :
    SubmitOutcome :=
  let isValid := validateShare st.jobId jobIdParam powOk
  { share :=
      { workerId := workername
      , ip := c.ip
      , timestamp := now
      , difficulty := st.difficulty
      , isValid := isValid
      , isBlock := false }
  , accepted := isValid
  , disconnected := false }

/-- The notification `StratumClient.start` sends on connect:
`mining.set_difficulty` with parameter list `[8]`. -/
def clientStartMessages : List (String × List ℚ) :=
  [("mining.set_difficulty", [8])]

/-! ### Connection registry and extraNonce1 assignment -/

/-- The open-session registry: `clients : Map<string, StratumClient>`,
modelled as an association list from clientId to the session's
extraNonce1. -/
structure Registry where
  clients : List (String × String)
  deriving DecidableEq

/-- The empty registry (server start). -/
def emptyRegistry : Registry := { clients := [] }

/-- `Map.set` on the registry: overwrite the entry when the key exists,
append otherwise. -/
def registrySet (r : Registry) (clientId extraNonce1 : String) : Registry :=
  if r.clients.any (fun kv => kv.1 == clientId) then
    { clients := r.clients.map fun kv =>
        if kv.1 == clientId then (kv.1, extraNonce1) else kv }
  else
    { clients := r.clients ++ [(clientId, extraNonce1)] }

/-- `StratumServer.handleConnection`: assign
`extraNonce1 = crypto.randomBytes(4).toString(hex)` — the random draw is
the `rand` oracle argument — and register the session.  No uniqueness check
is performed against the sessions already open. -/
def handleConnection (r : Registry) (clientId rand : String) : Registry :=
  registrySet r clientId rand

/-- `StratumServer.handleDisconnect`: `Map.delete` of the session. -/
def handleDisconnect (r : Registry) (clientId : String) : Registry :=
  { clients := r.clients.filter fun kv => !(kv.1 == clientId) }

/-- The invariant claimed of the registry: the extraNonce1 values of the
currently open sessions are pairwise distinct. -/
def noncesDistinct (r : Registry) : Prop :=
  (r.clients.map Prod.snd).Nodup

instance (r : Registry) : Decidable (noncesDistinct r) := by
  unfold noncesDistinct; infer_instance

/-! ### Per-connection message handling (`StratumClient.handleMessage`) -/

/-- One newline-delimited input line, as the `handleMessage` dispatch sees
it: a recognized method, an unknown method (parses but matches no branch),
or a line `JSON.parse` throws on. -/
inductive StratumMsg where
  | subscribe
  | authorize (username password : String)
  | submit (params : List String)
  | unknownMethod (method : String)
  | malformed (line : String)
  deriving DecidableEq

/-- The events `StratumClient` re-emits to the server. -/
inductive ClientEvent where
  | subscription
  | authorization (username password : String)
  | submitted (params : List String)
  deriving DecidableEq

/-- The `StratumClient` session flags the dispatch can touch. -/
structure ClientState where
  isSubscribed : Bool
  isAuthorized : Bool
  username : String
  isConnected : Bool
  deriving DecidableEq

/-- `StratumClient.handleMessage`: `mining.subscribe` sets the subscribed
flag and emits; `mining.authorize` and `mining.submit` emit; an unknown
method is logged and dropped; a malformed line is caught, logged and
dropped.  Nothing closes the connection. -/
def handleMessage (c : ClientState) (m : StratumMsg) :
    ClientState × List ClientEvent :=
  match m with
  | .subscribe => ({ c with isSubscribed := true }, [.subscription])
  | .authorize u p => (c, [.authorization u p])
  | .submit ps => (c, [.submitted ps])
  | .unknownMethod _ => (c, [])
  | .malformed _ => (c, [])

/-- The lines `handleMessage` discards without effect: unknown methods and
unparsable lines. -/
def discarded (m : StratumMsg) : Bool :=
  match m with
  | .unknownMethod _ => true
  | .malformed _ => true
  | _ => false

/-- The read loop (`handleData`): process the buffered complete lines in
order, accumulating emitted events. -/
def processLines (c : ClientState) (ms : List StratumMsg) :
    ClientState × List ClientEvent :=
  match ms with
  | [] => (c, [])
  | m :: rest =>
    let (c', evs) := handleMessage c m
    let (c'', evs') := processLines c' rest
    (c'', evs ++ evs')

/-! ## Payout batch processor (`PayoutManager`) -/

/-- `PayoutStatus` enum. -/
inductive PayoutStatus where
  | pending
  | processing
  | completed
  | failed
  deriving DecidableEq

/-- A payout record (interface `Payout`).  Timestamps are milliseconds. -/
structure Payout where
  id : String
  userId : String
  amount : ℚ
  fee : ℚ
  status : PayoutStatus
  transactionId : Option String
  timestamp : Int
  processedAt : Option Int
  deriving DecidableEq

/-- The `MemoryPayoutStorage` backing array, in insertion order. -/
abbrev PayoutStore := List Payout

/-- JavaScript truthiness of the optional `transactionId` argument:
`undefined` and the empty string are falsy. -/
def truthy (t : Option String) : Bool :=
  match t with
  | none => false
  | some s => !(s == "")

/-- The field updates `MemoryPayoutStorage.updatePayoutStatus` performs on
the found record: set `status`; set `transactionId` when the argument is
truthy; stamp `processedAt` when the new status is completed or failed. -/
def applyStatus (st : PayoutStatus) (txid : Option String) (now : Int)
    (p : Payout) : Payout :=
  { p with
    status := st
    transactionId := if truthy txid then txid else p.transactionId
    processedAt :=
      if st = .completed ∨ st = .failed then some now else p.processedAt }

/-- `Array.prototype.find` followed by mutation: update the first record
with the given id; `none` when no record matches (the source throws
`Payout with ID ... not found`). -/
def updateFirst (ps : PayoutStore) (i : String) (f : Payout → Payout) :
    Option PayoutStore :=
  match ps with
  | [] => none
  | p :: rest =>
    if p.id == i then some (f p :: rest)
    else (updateFirst rest i f).map (p :: ·)

/-- `MemoryPayoutStorage.updatePayoutStatus`. -/
def updatePayoutStatus (ps : PayoutStore) (i : String) (st : PayoutStatus)
    (txid : Option String) (now : Int) : Option PayoutStore :=
  updateFirst ps i (applyStatus st txid now)

/-- The record `Array.prototype.find` returns for an id. -/
def payoutOf (ps : PayoutStore) (i : String) : Option Payout :=
  ps.find? fun p => p.id == i

/-- The status of the record an id resolves to. -/
def statusOf (ps : PayoutStore) (i : String) : Option PayoutStatus :=
  (payoutOf ps i).map Payout.status

/-- An observable storage write: a payout row appearing (`savePayout`) or a
status write (`updatePayoutStatus`).  These are the observation points of
the payout lifecycle. -/
inductive Obs where
  | create (i : String) (amount : ℚ)
  | setStatus (i : String) (st : PayoutStatus)
  deriving DecidableEq

/-- Outcome of a sequential update loop over a list of ids: the store after
the writes that succeeded, the ids written (in order), and the error thrown
by the first failing lookup, if any. -/
structure MarkResult where
  store : PayoutStore
  done : List String
  err : Option String
  deriving DecidableEq

/-- A `for (const payout of payouts) await updatePayoutStatus(...)` loop:
stop at the first missing id, as the thrown error aborts the loop. -/
def markSeq (ps : PayoutStore) (ids : List String) (st : PayoutStatus)
    (txid : Option String) (now : Int) : MarkResult :=
  match ids with
  | [] => { store := ps, done := [], err := none }
  | i :: rest =>
    match updatePayoutStatus ps i st txid now with
    | some ps' =>
      let r := markSeq ps' rest st txid now
      { r with done := i :: r.done }
    | none =>
      { store := ps, done := []
      , err := some ("Payout with ID " ++ i ++ " not found") }

/-- One JavaScript object assignment `outputs[addr] = amount`: overwrite the
existing key, else append. -/
def setOutput (outputs : List (String × ℚ)) (addr : String) (amt : ℚ) :
    List (String × ℚ) :=
  if outputs.any (fun kv => kv.1 == addr) then
    outputs.map fun kv => if kv.1 == addr then (kv.1, amt) else kv
  else
    outputs ++ [(addr, amt)]

/-- The combined output set `processBatch` builds:
`for (const payout of payouts) outputs[payout.userId] = payout.amount`. -/
def buildOutputs (payouts : List Payout) : List (String × ℚ) :=
  payouts.foldl (fun acc p => setOutput acc p.userId p.amount) []

/-- The total amount a combined output set pays. -/
def outputsTotal (outputs : List (String × ℚ)) : ℚ :=
  (outputs.map Prod.snd).sum

/-- The total amount of a batch of payouts. -/
def payoutsTotal (payouts : List Payout) : ℚ :=
  (payouts.map Payout.amount).sum

/-- The amount a combined output set pays to one address. -/
def outputsFor (outputs : List (String × ℚ)) (addr : String) : ℚ :=
  ((outputs.filter fun kv => kv.1 == addr).map Prod.snd).sum

/-- The total of a batch's payout amounts destined for one address. -/
def payoutsTotalFor (payouts : List Payout) (addr : String) : ℚ :=
  ((payouts.filter fun p => p.userId == addr).map Payout.amount).sum

/-- The node RPC surface `processBatch` drives, as response oracles:
`createRawTransaction` and `signAndSendRawTransaction`, each returning a
value or throwing. -/
structure NodeBehavior where
  createRaw : List (String × ℚ) → Except String String
  signSend : String → Except String String

/-- The payout events `PayoutManager` emits. -/
inductive PayoutEvent where
  | created (p : Payout)
  | completedPayout (i : String) (txid : String)
  | failedPayout (i : String) (reason : String)
  deriving DecidableEq

/-- What one `processBatch` call produces: the store after it, the storage
writes it performed (in order), the events it emitted, and either the
returned count or the error that escaped it (an error escapes only when the
catch block's own status update throws). -/
structure BatchResult where
  store : PayoutStore
  writes : List Obs
  events : List PayoutEvent
  result : Except String Nat

/-- `PayoutManager.processBatch`: mark the batch `processing`, build the
combined outputs, create/sign/broadcast one transaction, then mark the
batch `completed` (emitting per payout); on any throw, the catch marks the
batch `failed` and emits `payout:failed` per payout with the error
message. -/
def processBatch (node : NodeBehavior) (ps : PayoutStore)
    (batch : List Payout) (now : Int) : BatchResult :=
  let ids := batch.map Payout.id
  let m1 := markSeq ps ids .processing none now
  -- outcome of the try block: store, writes, events, and the thrown error
  let tryOut : PayoutStore × List Obs × List PayoutEvent × Option String × Nat :=
    match m1.err with
    | some e =>
      (m1.store, m1.done.map (fun i => .setStatus i .processing), [], some e, 0)
    | none =>
      let w1 : List Obs := ids.map fun i => .setStatus i .processing
      match node.createRaw (buildOutputs batch) with
      | .error e => (m1.store, w1, [], some e, 0)
      | .ok rawTx =>
        match node.signSend rawTx with
        | .error e => (m1.store, w1, [], some e, 0)
        | .ok txid =>
          let m2 := markSeq m1.store ids .completed (some txid) now
          ( m2.store
          , w1 ++ m2.done.map (fun i => .setStatus i .completed)
          , m2.done.map (fun i => .completedPayout i txid)
          , m2.err
          , batch.length )
  match tryOut with
  | (st, ws, evs, none, n) =>
    { store := st, writes := ws, events := evs, result := .ok n }
  | (st, ws, evs, some e, _) =>
    let m3 := markSeq st ids .failed none now
    { store := m3.store
    , writes := ws ++ m3.done.map (fun i => .setStatus i .failed)
    , events := evs ++ m3.done.map (fun i => .failedPayout i e)
    , result :=
        match m3.err with
        | some e' => .error e'
        | none => .ok 0 }

/-- The batching loop of `processPayouts`: push pending payouts into the
current batch, flushing it whenever it reaches `maxPayoutsPerBatch`, and
keep a nonempty remainder as the final batch. -/
def buildBatchesAux (maxPerBatch : Nat) (acc : List (List Payout))
    (cur : List Payout) : List Payout → List (List Payout)
  | [] => if cur.isEmpty then acc else acc ++ [cur]
  | p :: rest =>
    let cur' := cur ++ [p]
    if maxPerBatch ≤ cur'.length then buildBatchesAux maxPerBatch (acc ++ [cur']) [] rest
    else buildBatchesAux maxPerBatch acc cur' rest

/-- The batches `processPayouts` forms from the pending payouts. -/
def buildBatches (maxPerBatch : Nat) (pending : List Payout) :
    List (List Payout) :=
  buildBatchesAux maxPerBatch [] [] pending

/-- The `for (const batch of batches)` loop: process the batches in order,
threading the store, summing the counts; a thrown error aborts the loop and
propagates. -/
def runBatches (node : NodeBehavior) (ps : PayoutStore)
    (batches : List (List Payout)) (now : Int) : BatchResult :=
  match batches with
  | [] => { store := ps, writes := [], events := [], result := .ok 0 }
  | b :: rest =>
    let r := processBatch node ps b now
    match r.result with
    | .error e =>
      { store := r.store, writes := r.writes, events := r.events
      , result := .error e }
    | .ok n =>
      let r' := runBatches node r.store rest now
      { store := r'.store
      , writes := r.writes ++ r'.writes
      , events := r.events ++ r'.events
      , result :=
          match r'.result with
          | .error e => .error e
          | .ok m => .ok (n + m) }

/-- `PayoutManagerConfig` fields the modelled operations read. -/
structure PMConfig where
  minPayout : ℚ
  maxPayoutsPerBatch : Nat

/-- The engine state: the storage array and the single-flight
`isProcessing` flag. -/
structure EngineState where
  store : PayoutStore
  isProcessing : Bool

/-- The engine state at construction: empty storage, flag clear. -/
def initialEngine : EngineState :=
  { store := [], isProcessing := false }

/-- What one engine operation produces: the state after it, the storage
writes, the events, and the returned value or thrown error. -/
structure EngineResult (α : Type) where
  state : EngineState
  writes : List Obs
  events : List PayoutEvent
  result : Except String α

/-- `PayoutManager.createPayout`: below the minimum threshold throw;
otherwise append a pending payout with `fee: 0` and emit
`payout:created`. -/
def createPayout (cfg : PMConfig) (st : EngineState) (i userId : String)
    (amount : ℚ) (now : Int) : EngineResult Payout :=
  if amount < cfg.minPayout then
    { state := st, writes := [], events := []
    , result := .error "below minimum payout threshold" }
  else
    let p : Payout :=
      { id := i, userId := userId, amount := amount, fee := 0
      , status := .pending, transactionId := none
      , timestamp := now, processedAt := none }
    { state := { st with store := st.store ++ [p] }
    , writes := [.create i amount]
    , events := [.created p]
    , result := .ok p }

/-- `PayoutManager.processPayouts`: skip entirely when the single-flight
flag is set; otherwise set the flag, pull the pending payouts, batch them,
process each batch, and clear the flag in the `finally`. -/
def processPayouts (cfg : PMConfig) (node : NodeBehavior) (st : EngineState)
    (now : Int) : EngineResult Nat :=
  if st.isProcessing then
    { state := st, writes := [], events := [], result := .ok 0 }
  else
    let pending := st.store.filter fun p => p.status == PayoutStatus.pending
    if pending.isEmpty then
      { state := { st with isProcessing := false }
      , writes := [], events := [], result := .ok 0 }
    else
      let batches := buildBatches cfg.maxPayoutsPerBatch pending
      let r := runBatches node st.store batches now
      { state := { store := r.store, isProcessing := false }
      , writes := r.writes
      , events := r.events
      , result := r.result }

/-- An externally triggered engine operation: a payout creation or one
payout-cycle trigger (scheduled or manual; the node oracle may differ per
trigger). -/
inductive EngineOp where
  | create (i userId : String) (amount : ℚ) (now : Int)
  | runPayouts (node : NodeBehavior) (now : Int)

/-- Run one operation. -/
def engineStep (cfg : PMConfig) (st : EngineState) :
    EngineOp → EngineState × List Obs
  | .create i u a now =>
    let r := createPayout cfg st i u a now
    (r.state, r.writes)
  | .runPayouts node now =>
    let r := processPayouts cfg node st now
    (r.state, r.writes)

/-- Run a sequence of operations from a starting state, collecting the
storage-write trace. -/
def engineRunFrom (cfg : PMConfig) (st : EngineState) :
    List EngineOp → EngineState × List Obs
  | [] => (st, [])
  | op :: rest =>
    let (st', w) := engineStep cfg st op
    let (st'', w') := engineRunFrom cfg st' rest
    (st'', w ++ w')

/-- Run a sequence of operations from the initial engine state. -/
def engineRun (cfg : PMConfig) (ops : List EngineOp) :
    EngineState × List Obs :=
  engineRunFrom cfg initialEngine ops

/-- The ids of the create operations in a sequence (the ids
`generatePayoutId` handed out). -/
def createIds : List EngineOp → List String
  | [] => []
  | .create i _ _ _ :: rest => i :: createIds rest
  | .runPayouts _ _ :: rest => createIds rest

/-- The status sequence one payout id is observed to take along a write
trace: `pending` at its creation, then each written status. -/
def statusHistory (tr : List Obs) (i : String) : List PayoutStatus :=
  match tr with
  | [] => []
  | .create j _ :: rest =>
    (if j = i then [PayoutStatus.pending] else []) ++ statusHistory rest i
  | .setStatus j s :: rest =>
    (if j = i then [s] else []) ++ statusHistory rest i

/-- The amount a payout id was created with, along a write trace. -/
def amountAt (tr : List Obs) (i : String) : Option ℚ :=
  match tr with
  | [] => none
  | .create j a :: rest => if j = i then some a else amountAt rest i
  | .setStatus _ _ :: rest => amountAt rest i

/-- The legal observed status sequences: the prefixes of
`pending → processing → completed` and of
`pending → processing → failed`. -/
def allowedHistories : List (List PayoutStatus) :=
  [ []
  , [.pending]
  , [.pending, .processing]
  , [.pending, .processing, .completed]
  , [.pending, .processing, .failed] ]

/-- The status history that a stored payout's current status accounts for:
how the record must have been observed to reach that status. -/
def baseHist : PayoutStatus → List PayoutStatus
  | .pending => [.pending]
  | .processing => [.pending, .processing]
  | .completed => [.pending, .processing, .completed]
  | .failed => [.pending, .processing, .failed]

/-- The inductive invariant tying a write trace to an engine state: stored
ids are unique, each stored payout's observed status history and creation
amount agree with its record, an id absent from storage was never written,
and the single-flight flag is clear between operations. -/
def EngineInv (tr : List Obs) (st : EngineState) : Prop :=
  (st.store.map Payout.id).Nodup
  ∧ (∀ p ∈ st.store, statusHistory tr p.id = baseHist p.status)
  ∧ (∀ p ∈ st.store, amountAt tr p.id = some p.amount)
  ∧ (∀ i, i ∉ st.store.map Payout.id →
      statusHistory tr i = [] ∧ amountAt tr i = none)
  ∧ st.isProcessing = false

/-! ## Concrete fixtures used by counterexamples and witnesses -/

/-- A pending payout of 1 BTC to address `addr1`. -/
def pxA : Payout :=
  { id := "po1", userId := "addr1", amount := 1, fee := 0
  , status := .pending, transactionId := none, timestamp := 0, processedAt := none }

/-- A second pending payout of 2 BTC to the same address `addr1`. -/
def pxB : Payout :=
  { id := "po2", userId := "addr1", amount := 2, fee := 0
  , status := .pending, transactionId := none, timestamp := 0, processedAt := none }

/-- A pending payout of 3 BTC to a different address. -/
def pxC : Payout :=
  { id := "po3", userId := "addr2", amount := 3, fee := 0
  , status := .pending, transactionId := none, timestamp := 0, processedAt := none }

/-- A node oracle whose broadcast call throws. -/
def nodeBroadcastFails : NodeBehavior :=
  { createRaw := fun _ => .ok "rawtx"
  , signSend := fun _ => .error "broadcast failed: insufficient funds" }

/-- A node oracle whose calls succeed. -/
def nodeOk : NodeBehavior :=
  { createRaw := fun _ => .ok "rawtx", signSend := fun _ => .ok "txid001" }

/-- A configuration with minimum payout 1 and batch cap 50. -/
def cfgW : PMConfig := { minPayout := 1, maxPayoutsPerBatch := 50 }

/-- A short engine run: two creations and one payout cycle. -/
def opsW : List EngineOp :=
  [ .create "p1" "alice" 5 0
  , .create "p2" "bob" 7 1
  , .runPayouts nodeOk 2 ]

/-- A valid share of difficulty 1 at time 0. -/
def shUnit : Share :=
  { workerId := "w1", ip := "10.0.0.1", timestamp := 0
  , difficulty := 1, isValid := true, isBlock := false }

/-- A valid share of difficulty 300 by miner A at time 1000. -/
def shMinerA : Share :=
  { workerId := "minerA", ip := "10.0.0.2", timestamp := 1000
  , difficulty := 300, isValid := true, isBlock := false }

/-- A valid share of difficulty 100 by miner B at time 1000. -/
def shMinerB : Share :=
  { workerId := "minerB", ip := "10.0.0.3", timestamp := 1000
  , difficulty := 100, isValid := true, isBlock := false }

/-! ## Share-accounting lemmas -/

lemma totalDiff_nil : totalDiff [] = 0 := rfl

lemma totalDiff_cons (s : Share) (l : List Share) :
    totalDiff (s :: l) = s.difficulty + totalDiff l := by
  simp [totalDiff]

lemma workersOf_nil : workersOf [] = ∅ := rfl

lemma workersOf_cons (s : Share) (l : List Share) :
    workersOf (s :: l) = insert s.workerId (workersOf l) := by
  simp [workersOf]

lemma mem_workersOf {w : String} {l : List Share} :
    w ∈ workersOf l ↔ w ∈ l.map Share.workerId := by
  simp [workersOf]

lemma minerDifficultySum_cons (s : Share) (l : List Share) (w : String) :
    minerDifficultySum (s :: l) w
      = (if s.workerId = w then s.difficulty else 0) + minerDifficultySum l w := by
  by_cases h : s.workerId = w <;>
    simp [minerDifficultySum, totalDiff, List.filter_cons, h]

lemma minerDifficultySum_eq_zero {l : List Share} {w : String}
    (h : w ∉ workersOf l) : minerDifficultySum l w = 0 := by
  induction l with
  | nil => rfl
  | cons s t ih =>
    rw [workersOf_cons, Finset.mem_insert] at h
    push_neg at h
    rw [minerDifficultySum_cons, if_neg (fun hc => h.1 hc.symm), ih h.2]
    ring

lemma sum_minerDifficultySum (l : List Share) :
    ∑ w in workersOf l, minerDifficultySum l w = totalDiff l := by
  induction l with
  | nil => simp [workersOf_nil, totalDiff_nil]
  | cons s t ih =>
    rw [workersOf_cons, totalDiff_cons]
    by_cases hmem : s.workerId ∈ workersOf t
    · rw [Finset.insert_eq_self.mpr hmem]
      calc ∑ w in workersOf t, minerDifficultySum (s :: t) w
          = ∑ w in workersOf t,
              ((if s.workerId = w then s.difficulty else 0)
                + minerDifficultySum t w) :=
            Finset.sum_congr rfl fun w _ => minerDifficultySum_cons s t w
        _ = (∑ w in workersOf t, if s.workerId = w then s.difficulty else 0)
              + ∑ w in workersOf t, minerDifficultySum t w :=
            Finset.sum_add_distrib
        _ = s.difficulty + totalDiff t := by
            rw [Finset.sum_ite_eq, if_pos hmem, ih]
    · rw [Finset.sum_insert hmem]
      have h1 : minerDifficultySum (s :: t) s.workerId = s.difficulty := by
        rw [minerDifficultySum_cons, if_pos rfl,
          minerDifficultySum_eq_zero hmem]
        ring
      have h2 : ∑ w in workersOf t, minerDifficultySum (s :: t) w
          = totalDiff t := by
        calc ∑ w in workersOf t, minerDifficultySum (s :: t) w
            = ∑ w in workersOf t,
                ((if s.workerId = w then s.difficulty else 0)
                  + minerDifficultySum t w) :=
              Finset.sum_congr rfl fun w _ => minerDifficultySum_cons s t w
          _ = (∑ w in workersOf t, if s.workerId = w then s.difficulty else 0)
                + ∑ w in workersOf t, minerDifficultySum t w :=
              Finset.sum_add_distrib
          _ = totalDiff t := by
              rw [Finset.sum_ite_eq, if_neg hmem, ih]; ring
      rw [h1, h2]

/-! ## Payout-store lemmas -/

lemma applyStatus_id (st : PayoutStatus) (txid : Option String) (now : Int)
    (p : Payout) : (applyStatus st txid now p).id = p.id := rfl

lemma applyStatus_amount (st : PayoutStatus) (txid : Option String)
    (now : Int) (p : Payout) : (applyStatus st txid now p).amount = p.amount := rfl

lemma applyStatus_userId (st : PayoutStatus) (txid : Option String)
    (now : Int) (p : Payout) : (applyStatus st txid now p).userId = p.userId := rfl

lemma applyStatus_status (st : PayoutStatus) (txid : Option String)
    (now : Int) (p : Payout) : (applyStatus st txid now p).status = st := rfl

lemma map_payoutId_map {g : Payout → Payout} (hg : ∀ p, (g p).id = p.id)
    (ps : PayoutStore) : (ps.map g).map Payout.id = ps.map Payout.id := by
  rw [List.map_map]
  exact List.map_congr_left fun p _ => hg p

lemma updateFirst_eq_map {ps : PayoutStore} {i : String} {f : Payout → Payout}
    (hnd : (ps.map Payout.id).Nodup) (hmem : i ∈ ps.map Payout.id) :
    updateFirst ps i f
      = some (ps.map fun p => if p.id = i then f p else p) := by
  induction ps with
  | nil => simp at hmem
  | cons p rest ih =>
    rw [List.map_cons, List.nodup_cons] at hnd
    rw [List.map_cons, List.mem_cons] at hmem
    by_cases hpe : p.id = i
    · have hrest : rest.map (fun q => if q.id = i then f q else q) = rest := by
        have hq : ∀ q ∈ rest, (if q.id = i then f q else q) = id q := by
          intro q hq
          have hne : q.id ≠ i := by
            intro hc
            exact hnd.1 (hpe ▸ hc ▸ List.mem_map_of_mem Payout.id hq)
          simp [hne]
        rw [List.map_congr_left hq, List.map_id]
      have hb : (p.id == i) = true := beq_iff_eq.mpr hpe
      simp [updateFirst, hb, hrest, hpe]
    · have hmem' : i ∈ rest.map Payout.id := by
        rcases hmem with h | h
        · exact absurd h.symm hpe
        · exact h
      have hb : ¬ (p.id == i) = true := fun hc => hpe (beq_iff_eq.mp hc)
      simp [updateFirst, hb, ih hnd.2 hmem', hpe]

lemma markSeq_spec {ps : PayoutStore} {ids : List String}
    {st : PayoutStatus} {txid : Option String} {now : Int}
    (hnd : (ps.map Payout.id).Nodup) (hids : ids.Nodup)
    (hsub : ∀ i ∈ ids, i ∈ ps.map Payout.id) :
    markSeq ps ids st txid now
      = { store := ps.map fun p =>
            if p.id ∈ ids then applyStatus st txid now p else p
        , done := ids, err := none } := by
  induction ids generalizing ps with
  | nil =>
    simp [markSeq]
  | cons i rest ih =>
    rw [List.nodup_cons] at hids
    have hmem : i ∈ ps.map Payout.id := hsub i (List.mem_cons_self i rest)
    have hupd : updateFirst ps i (applyStatus st txid now)
        = some (ps.map fun p => if p.id = i then applyStatus st txid now p else p) :=
      updateFirst_eq_map hnd hmem
    have hgid : ∀ p : Payout,
        ((fun p => if p.id = i then applyStatus st txid now p else p) p).id
          = p.id := by
      intro p; by_cases h : p.id = i <;> simp [h, applyStatus_id]
    have hnd1 : ((ps.map fun p => if p.id = i then applyStatus st txid now p else p).map
        Payout.id).Nodup := by
      rw [map_payoutId_map hgid]; exact hnd
    have hsub1 : ∀ j ∈ rest,
        j ∈ (ps.map fun p => if p.id = i then applyStatus st txid now p else p).map
          Payout.id := by
      rw [map_payoutId_map hgid]
      exact fun j hj => hsub j (List.mem_cons_of_mem i hj)
    have hcomp : ∀ p ∈ ps,
        ((fun q => if q.id ∈ rest then applyStatus st txid now q else q)
          ((fun q => if q.id = i then applyStatus st txid now q else q) p))
        = if p.id ∈ i :: rest then applyStatus st txid now p else p := by
      intro p _
      by_cases hpe : p.id = i
      · have hni : (applyStatus st txid now p).id ∉ rest := by
          rw [applyStatus_id, hpe]; exact hids.1
        simp [hpe, hni]
      · by_cases hr : p.id ∈ rest <;> simp [hpe, hr]
    rw [markSeq, updatePayoutStatus, hupd]
    simp only [ih hnd1 hids.2 hsub1, List.map_map]
    refine congrArg (fun l => MarkResult.mk l (i :: rest) none) ?_
    exact List.map_congr_left hcomp

lemma payoutOf_map {g : Payout → Payout} (hg : ∀ p, (g p).id = p.id)
    (ps : PayoutStore) (i : String) :
    payoutOf (ps.map g) i = (payoutOf ps i).map g := by
  unfold payoutOf
  rw [List.find?_map]
  have : ((fun p : Payout => p.id == i) ∘ g) = fun p : Payout => p.id == i := by
    funext p; simp [Function.comp, hg]
  rw [this]

lemma payoutOf_eq_some_id {ps : PayoutStore} {i : String} {q : Payout}
    (h : payoutOf ps i = some q) : q.id = i := by
  unfold payoutOf at h
  have hb := List.find?_some h
  simpa using hb

lemma payoutOf_mem {ps : PayoutStore} {i : String} {q : Payout}
    (h : payoutOf ps i = some q) : q ∈ ps := by
  unfold payoutOf at h
  exact List.mem_of_find?_eq_some h

lemma payoutOf_exists_of_mem_ids {ps : PayoutStore} {i : String}
    (h : i ∈ ps.map Payout.id) : ∃ q, payoutOf ps i = some q := by
  rcases List.mem_map.mp h with ⟨q, hq, rfl⟩
  have : (payoutOf ps q.id).isSome = true :=
    List.find?_isSome.mpr ⟨q, hq, beq_self_eq_true q.id⟩
  exact Option.isSome_iff_exists.mp this

lemma payoutOf_of_mem_nodup {ps : PayoutStore} {p : Payout}
    (hnd : (ps.map Payout.id).Nodup) (hp : p ∈ ps) :
    payoutOf ps p.id = some p := by
  induction ps with
  | nil => cases hp
  | cons q rest ih =>
    rw [List.map_cons, List.nodup_cons] at hnd
    rcases List.mem_cons.mp hp with rfl | hmem
    · simp [payoutOf, List.find?_cons]
    · have hne : ¬ (q.id == p.id) = true := by
        intro hc
        exact hnd.1 (eq_of_beq hc ▸ List.mem_map_of_mem Payout.id hmem)
      have := ih hnd.2 hmem
      simp only [payoutOf, List.find?_cons, hne] at *
      simpa [hne] using this

/-! ## Write-trace lemmas -/

lemma statusHistory_append (t1 t2 : List Obs) (i : String) :
    statusHistory (t1 ++ t2) i = statusHistory t1 i ++ statusHistory t2 i := by
  induction t1 with
  | nil => simp [statusHistory]
  | cons o rest ih =>
    cases o <;> simp [statusHistory, ih, List.append_assoc]

lemma amountAt_append_of_none {t1 : List Obs} {i : String}
    (h : amountAt t1 i = none) (t2 : List Obs) :
    amountAt (t1 ++ t2) i = amountAt t2 i := by
  induction t1 with
  | nil => simp
  | cons o rest ih =>
    cases o with
    | create j a =>
      by_cases hj : j = i
      · simp [amountAt, hj] at h
      · simp [amountAt, hj] at h ⊢
        exact ih h
    | setStatus j s =>
      simp [amountAt] at h ⊢
      exact ih h

lemma amountAt_append_of_some {t1 : List Obs} {i : String} {a : ℚ}
    (h : amountAt t1 i = some a) (t2 : List Obs) :
    amountAt (t1 ++ t2) i = some a := by
  induction t1 with
  | nil => simp [amountAt] at h
  | cons o rest ih =>
    cases o with
    | create j b =>
      by_cases hj : j = i
      · simp [amountAt, hj] at h ⊢
        exact h
      · simp [amountAt, hj] at h ⊢
        exact ih h
    | setStatus j s =>
      simp [amountAt] at h ⊢
      exact ih h

lemma statusHistory_map_set_not_mem {l : List String} {i : String}
    (h : i ∉ l) (s : PayoutStatus) :
    statusHistory (l.map fun j => Obs.setStatus j s) i = [] := by
  induction l with
  | nil => rfl
  | cons j rest ih =>
    rw [List.mem_cons] at h
    push_neg at h
    have hne : j ≠ i := fun hc => h.1 hc.symm
    simp [statusHistory, hne, ih h.2]

lemma statusHistory_map_set_mem {l : List String} {i : String}
    (hnd : l.Nodup) (h : i ∈ l) (s : PayoutStatus) :
    statusHistory (l.map fun j => Obs.setStatus j s) i = [s] := by
  induction l with
  | nil => cases h
  | cons j rest ih =>
    rw [List.nodup_cons] at hnd
    rcases List.mem_cons.mp h with rfl | hmem
    · simp [statusHistory, statusHistory_map_set_not_mem hnd.1]
    · have hne : j ≠ i := fun hc => hnd.1 (hc ▸ hmem)
      simp [statusHistory, hne, ih hnd.2 hmem]

lemma amountAt_map_set (l : List String) (s : PayoutStatus) (i : String) :
    amountAt (l.map fun j => Obs.setStatus j s) i = none := by
  induction l with
  | nil => rfl
  | cons j rest ih => simp [amountAt, ih]

/-! ## Batching lemmas -/

lemma buildBatchesAux_flatten (m : Nat) (l : List Payout) :
    ∀ (acc : List (List Payout)) (cur : List Payout),
      (buildBatchesAux m acc cur l).flatten = acc.flatten ++ cur ++ l := by
  induction l with
  | nil =>
    intro acc cur
    by_cases h : cur.isEmpty
    · rw [List.isEmpty_iff] at h
      simp [buildBatchesAux, h]
    · simp [buildBatchesAux, h]
  | cons p rest ih =>
    intro acc cur
    by_cases h : m ≤ cur.length + 1
    · simp [buildBatchesAux, h, ih]
    · simp [buildBatchesAux, h, ih]

lemma buildBatches_flatten (m : Nat) (pending : List Payout) :
    (buildBatches m pending).flatten = pending := by
  unfold buildBatches
  rw [buildBatchesAux_flatten]
  simp

/-! ## Store-update helper lemmas -/

lemma payoutOf_mapUpd_not_mem {ids : List String} {i : String}
    (h : i ∉ ids) (s : PayoutStatus) (txo : Option String) (now : Int)
    (ps : PayoutStore) :
    payoutOf (ps.map fun p => if p.id ∈ ids then applyStatus s txo now p else p) i
      = payoutOf ps i := by
  have hg : ∀ p : Payout,
      ((fun p => if p.id ∈ ids then applyStatus s txo now p else p) p).id = p.id := by
    intro p; by_cases hp : p.id ∈ ids <;> simp [hp, applyStatus_id]
  rw [payoutOf_map hg]
  cases hpo : payoutOf ps i with
  | none => rfl
  | some q =>
    have hqi : q.id = i := payoutOf_eq_some_id hpo
    simp [Option.map_some', hqi, h]

lemma payoutOf_mapUpd_mem {ids : List String} {i : String} {ps : PayoutStore}
    {q : Payout} (hq : payoutOf ps i = some q) (h : i ∈ ids)
    (s : PayoutStatus) (txo : Option String) (now : Int) :
    payoutOf (ps.map fun p => if p.id ∈ ids then applyStatus s txo now p else p) i
      = some (applyStatus s txo now q) := by
  have hg : ∀ p : Payout,
      ((fun p => if p.id ∈ ids then applyStatus s txo now p else p) p).id = p.id := by
    intro p; by_cases hp : p.id ∈ ids <;> simp [hp, applyStatus_id]
  rw [payoutOf_map hg, hq]
  have hqi : q.id = i := payoutOf_eq_some_id hq
  simp [Option.map_some', hqi, h]

/-- `processBatch` under unique present ids: the batch is marked
`processing` and then uniformly `completed` (node calls succeeded) or
`failed` (a node call threw); the store is the corresponding two-step
map-update and nothing escapes the catch. -/
lemma processBatch_spec (node : NodeBehavior) (ps : PayoutStore)
    (batch : List Payout) (now : Int)
    (hnd : (ps.map Payout.id).Nodup)
    (hbnd : (batch.map Payout.id).Nodup)
    (hsub : ∀ i ∈ batch.map Payout.id, i ∈ ps.map Payout.id) :
    ∃ (fin : PayoutStatus) (txo : Option String) (evs : List PayoutEvent)
      (n : Nat),
      (fin = .completed ∨ fin = .failed)
      ∧ processBatch node ps batch now
        = { store := (ps.map fun p => if p.id ∈ batch.map Payout.id
              then applyStatus .processing none now p else p).map
                fun p => if p.id ∈ batch.map Payout.id
                  then applyStatus fin txo now p else p
          , writes := (batch.map Payout.id).map (fun i => .setStatus i .processing)
              ++ (batch.map Payout.id).map (fun i => .setStatus i fin)
          , events := evs
          , result := .ok n } := by
  have hproc := @markSeq_spec ps (batch.map Payout.id)
    PayoutStatus.processing none now hnd hbnd hsub
  have hgp : ∀ p : Payout,
      ((fun p => if p.id ∈ batch.map Payout.id
          then applyStatus .processing none now p else p) p).id = p.id := by
    intro p
    by_cases h : p.id ∈ batch.map Payout.id <;> simp [h, applyStatus_id]
  have hnd1 : (((ps.map fun p => if p.id ∈ batch.map Payout.id
      then applyStatus .processing none now p else p)).map Payout.id).Nodup := by
    rw [map_payoutId_map hgp]; exact hnd
  have hsub1 : ∀ i ∈ batch.map Payout.id,
      i ∈ ((ps.map fun p => if p.id ∈ batch.map Payout.id
        then applyStatus .processing none now p else p)).map Payout.id := by
    rw [map_payoutId_map hgp]; exact hsub
  cases hcr : node.createRaw (buildOutputs batch) with
  | error e =>
    have hfail := @markSeq_spec
      (ps.map fun p => if p.id ∈ batch.map Payout.id
        then applyStatus .processing none now p else p)
      (batch.map Payout.id) PayoutStatus.failed none now
      hnd1 hbnd hsub1
    refine ⟨.failed, none,
      (batch.map Payout.id).map (fun i => .failedPayout i e), 0,
      Or.inr rfl, ?_⟩
    simp only [processBatch, hproc, hcr, hfail, List.nil_append]
  | ok raw =>
    cases hss : node.signSend raw with
    | error e =>
      have hfail := @markSeq_spec
        (ps.map fun p => if p.id ∈ batch.map Payout.id
          then applyStatus .processing none now p else p)
        (batch.map Payout.id) PayoutStatus.failed none now
        hnd1 hbnd hsub1
      refine ⟨.failed, none,
        (batch.map Payout.id).map (fun i => .failedPayout i e), 0,
        Or.inr rfl, ?_⟩
      simp only [processBatch, hproc, hcr, hss, hfail, List.nil_append]
    | ok txid =>
      have hcomp := @markSeq_spec
        (ps.map fun p => if p.id ∈ batch.map Payout.id
          then applyStatus .processing none now p else p)
        (batch.map Payout.id) PayoutStatus.completed (some txid)
        now hnd1 hbnd hsub1
      refine ⟨.completed, some txid,
        (batch.map Payout.id).map (fun i => .completedPayout i txid),
        batch.length, Or.inl rfl, ?_⟩
      simp only [processBatch, hproc, hcr, hss, hcomp, List.nil_append]

/-- The batch loop under unique present ids: it never throws, preserves the
id set, creates no payout, touches exactly the batched payouts — each is
observed `processing` then `completed` or `failed`, with its amount
untouched — and leaves every other payout's record and history alone. -/
lemma runBatches_spec (node : NodeBehavior) (now : Int) :
    ∀ (batches : List (List Payout)) (ps : PayoutStore),
      (ps.map Payout.id).Nodup →
      (∀ b ∈ batches, ∀ p ∈ b, p ∈ ps) →
      (batches.flatten.map Payout.id).Nodup →
      ∃ ps' W E n,
        runBatches node ps batches now
          = { store := ps', writes := W, events := E, result := .ok n }
        ∧ ps'.map Payout.id = ps.map Payout.id
        ∧ (∀ i, amountAt W i = none)
        ∧ (∀ i, i ∉ batches.flatten.map Payout.id →
            statusHistory W i = [] ∧ payoutOf ps' i = payoutOf ps i)
        ∧ (∀ p ∈ batches.flatten, ∃ fin,
            (fin = PayoutStatus.completed ∨ fin = PayoutStatus.failed)
            ∧ statusHistory W p.id = [.processing, fin]
            ∧ ∃ q, payoutOf ps' p.id = some q ∧ q.status = fin
                ∧ q.amount = p.amount) := by
  intro batches
  induction batches with
  | nil =>
    intro ps hnd _ _
    exact ⟨ps, [], [], 0, rfl, rfl, fun i => rfl,
      fun i _ => ⟨rfl, rfl⟩, fun p hp => absurd hp (by simp)⟩
  | cons b rest ih =>
    intro ps hnd hsub hjnd
    have hflat : (b :: rest).flatten = b ++ rest.flatten := rfl
    rw [hflat, List.map_append] at hjnd
    obtain ⟨hbnd, hrnd, hdisj⟩ := List.nodup_append.mp hjnd
    have hsubb : ∀ i ∈ b.map Payout.id, i ∈ ps.map Payout.id := by
      intro i hi
      rcases List.mem_map.mp hi with ⟨p, hp, rfl⟩
      exact List.mem_map_of_mem Payout.id
        (hsub b (List.mem_cons_self b rest) p hp)
    obtain ⟨fin, txo, evs, n, hfin, hpb⟩ :=
      processBatch_spec node ps b now hnd hbnd hsubb
    have hg1 : ∀ p : Payout,
        ((fun p => if p.id ∈ b.map Payout.id
            then applyStatus .processing none now p else p) p).id = p.id := by
      intro p
      by_cases h : p.id ∈ b.map Payout.id <;> simp [h, applyStatus_id]
    have hg2 : ∀ p : Payout,
        ((fun p => if p.id ∈ b.map Payout.id
            then applyStatus fin txo now p else p) p).id = p.id := by
      intro p
      by_cases h : p.id ∈ b.map Payout.id <;> simp [h, applyStatus_id]
    have hids1 : ((ps.map fun p => if p.id ∈ b.map Payout.id
          then applyStatus .processing none now p else p).map
            fun p => if p.id ∈ b.map Payout.id
              then applyStatus fin txo now p else p).map Payout.id
        = ps.map Payout.id := by
      rw [map_payoutId_map hg2, map_payoutId_map hg1]
    have hnd1 : (((ps.map fun p => if p.id ∈ b.map Payout.id
          then applyStatus .processing none now p else p).map
            fun p => if p.id ∈ b.map Payout.id
              then applyStatus fin txo now p else p).map Payout.id).Nodup := by
      rw [hids1]; exact hnd
    have hsubr : ∀ b' ∈ rest, ∀ p ∈ b',
        p ∈ ((ps.map fun p => if p.id ∈ b.map Payout.id
          then applyStatus .processing none now p else p).map
            fun p => if p.id ∈ b.map Payout.id
              then applyStatus fin txo now p else p) := by
      intro b' hb' p hp
      have hp0 : p ∈ ps := hsub b' (List.mem_cons_of_mem b hb') p hp
      have hpid : p.id ∈ rest.flatten.map Payout.id :=
        List.mem_map_of_mem Payout.id (List.mem_flatten.mpr ⟨b', hb', hp⟩)
      have hnotb : p.id ∉ b.map Payout.id := fun hc => hdisj hc hpid
      have e1 : (fun p : Payout => if p.id ∈ b.map Payout.id
          then applyStatus .processing none now p else p) p = p := if_neg hnotb
      have e2 : (fun p : Payout => if p.id ∈ b.map Payout.id
          then applyStatus fin txo now p else p) p = p := if_neg hnotb
      have m1 := List.mem_map_of_mem (fun p : Payout =>
        if p.id ∈ b.map Payout.id then applyStatus .processing none now p else p) hp0
      rw [e1] at m1
      have m2 := List.mem_map_of_mem (fun p : Payout =>
        if p.id ∈ b.map Payout.id then applyStatus fin txo now p else p) m1
      rw [e2] at m2
      exact m2
    obtain ⟨ps'', W', E', n', hrun', hids', hamt', hout', htouch'⟩ :=
      ih _ hnd1 hsubr hrnd
    have hres : runBatches node ps (b :: rest) now
        = { store := ps''
          , writes := ((b.map Payout.id).map (fun i => .setStatus i .processing)
              ++ (b.map Payout.id).map (fun i => .setStatus i fin)) ++ W'
          , events := evs ++ E'
          , result := .ok (n + n') } := by
      simp only [runBatches, hpb, hrun']
    refine ⟨ps'', _, _, n + n', hres, hids'.trans hids1, ?_, ?_, ?_⟩
    · intro i
      have h1 : amountAt ((b.map Payout.id).map (fun i => Obs.setStatus i .processing)
          ++ (b.map Payout.id).map (fun i => Obs.setStatus i fin)) i = none := by
        rw [amountAt_append_of_none (amountAt_map_set _ _ _)]
        exact amountAt_map_set _ _ _
      rw [amountAt_append_of_none h1]
      exact hamt' i
    · intro i hi
      rw [hflat, List.map_append, List.mem_append] at hi
      push_neg at hi
      refine ⟨?_, ?_⟩
      · rw [statusHistory_append, statusHistory_append,
          statusHistory_map_set_not_mem hi.1,
          statusHistory_map_set_not_mem hi.1, (hout' i hi.2).1]
        rfl
      · rw [(hout' i hi.2).2, payoutOf_mapUpd_not_mem hi.1,
          payoutOf_mapUpd_not_mem hi.1]
    · intro p hp
      rw [hflat, List.mem_append] at hp
      rcases hp with hp | hp
      · have hpid : p.id ∈ b.map Payout.id := List.mem_map_of_mem Payout.id hp
        have hpps : p ∈ ps := hsub b (List.mem_cons_self b rest) p hp
        have hq0 : payoutOf ps p.id = some p := payoutOf_of_mem_nodup hnd hpps
        have h1 : payoutOf (ps.map fun p => if p.id ∈ b.map Payout.id
            then applyStatus .processing none now p else p) p.id
            = some (applyStatus .processing none now p) :=
          payoutOf_mapUpd_mem hq0 hpid _ _ _
        have h2 : payoutOf ((ps.map fun p => if p.id ∈ b.map Payout.id
            then applyStatus .processing none now p else p).map
              fun p => if p.id ∈ b.map Payout.id
                then applyStatus fin txo now p else p) p.id
            = some (applyStatus fin txo now (applyStatus .processing none now p)) :=
          payoutOf_mapUpd_mem h1 hpid _ _ _
        have hnotr : p.id ∉ rest.flatten.map Payout.id :=
          fun hc => hdisj hpid hc
        refine ⟨fin, hfin, ?_, ?_⟩
        · rw [statusHistory_append, statusHistory_append,
            statusHistory_map_set_mem hbnd hpid,
            statusHistory_map_set_mem hbnd hpid, (hout' p.id hnotr).1]
          rfl
        · rw [(hout' p.id hnotr).2, h2]
          exact ⟨_, rfl, applyStatus_status _ _ _ _,
            (applyStatus_amount _ _ _ _).trans (applyStatus_amount _ _ _ _)⟩
      · obtain ⟨fin', hfin', hhist', hq'⟩ := htouch' p hp
        have hpid : p.id ∈ rest.flatten.map Payout.id :=
          List.mem_map_of_mem Payout.id hp
        have hnotb : p.id ∉ b.map Payout.id := fun hc => hdisj hc hpid
        refine ⟨fin', hfin', ?_, hq'⟩
        rw [statusHistory_append, statusHistory_append,
          statusHistory_map_set_not_mem hnotb,
          statusHistory_map_set_not_mem hnotb, hhist']
        rfl

lemma createIds_append (l1 l2 : List EngineOp) :
    createIds (l1 ++ l2) = createIds l1 ++ createIds l2 := by
  induction l1 with
  | nil => rfl
  | cons op rest ih => cases op <;> simp [createIds, ih]

/-- The engine invariant is preserved by any operation sequence whose
created ids are fresh and mutually distinct. -/
lemma engineRunFrom_inv (cfg : PMConfig) :
    ∀ (ops : List EngineOp) (st : EngineState) (tr : List Obs),
      EngineInv tr st →
      (∀ i ∈ createIds ops, i ∉ st.store.map Payout.id) →
      (createIds ops).Nodup →
      EngineInv (tr ++ (engineRunFrom cfg st ops).2)
        (engineRunFrom cfg st ops).1 := by
  intro ops
  induction ops with
  | nil =>
    intro st tr hinv _ _
    simpa [engineRunFrom] using hinv
  | cons op rest ih =>
    intro st tr hinv hfresh hnd
    obtain ⟨hsnd, hhist, hamt, hmiss, hflag⟩ := hinv
    cases op with
    | create i u a now =>
      simp only [createIds] at hfresh hnd
      rw [List.nodup_cons] at hnd
      by_cases hlt : a < cfg.minPayout
      · have hstep : engineStep cfg st (.create i u a now) = (st, []) := by
          simp [engineStep, createPayout, hlt]
        simp only [engineRunFrom, hstep]
        rw [List.nil_append]
        exact ih st tr ⟨hsnd, hhist, hamt, hmiss, hflag⟩
          (fun j hj => hfresh j (List.mem_cons_of_mem i hj)) hnd.2
      · have hstep : engineStep cfg st (.create i u a now)
            = ({ st with store := st.store ++
                  [{ id := i, userId := u, amount := a, fee := 0
                   , status := .pending, transactionId := none
                   , timestamp := now, processedAt := none }] }
              , [.create i a]) := by
          simp [engineStep, createPayout, hlt]
        have hifresh : i ∉ st.store.map Payout.id :=
          hfresh i (List.mem_cons_self i _)
        have hinv1 : EngineInv (tr ++ [Obs.create i a])
            { st with store := st.store ++
                [{ id := i, userId := u, amount := a, fee := 0
                 , status := .pending, transactionId := none
                 , timestamp := now, processedAt := none }] } := by
          refine ⟨?_, ?_, ?_, ?_, hflag⟩
          · rw [List.map_append]
            refine List.nodup_append.mpr ⟨hsnd, List.nodup_singleton i, ?_⟩
            intro x hx hx'
            simp at hx'
            exact hifresh (hx' ▸ hx)
          · intro p' hp'
            rcases List.mem_append.mp hp' with hp0 | hp1
            · have hpne : i ≠ p'.id := fun hc =>
                hifresh (hc ▸ List.mem_map_of_mem Payout.id hp0)
              rw [statusHistory_append, hhist p' hp0]
              simp [statusHistory, hpne]
            · rw [List.mem_singleton] at hp1
              subst hp1
              rw [statusHistory_append, (hmiss i hifresh).1]
              simp [statusHistory, baseHist]
          · intro p' hp'
            rcases List.mem_append.mp hp' with hp0 | hp1
            · exact amountAt_append_of_some (hamt p' hp0) _
            · rw [List.mem_singleton] at hp1
              subst hp1
              rw [amountAt_append_of_none (hmiss i hifresh).2]
              simp [amountAt]
          · intro j hj
            rw [List.map_append, List.mem_append] at hj
            push_neg at hj
            have hjne : i ≠ j := fun hc => hj.2 (by simp [hc])
            refine ⟨?_, ?_⟩
            · rw [statusHistory_append, (hmiss j hj.1).1]
              simp [statusHistory, hjne]
            · rw [amountAt_append_of_none (hmiss j hj.1).2]
              simp [amountAt, hjne]
        have hfresh1 : ∀ j ∈ createIds rest,
            j ∉ ({ st with store := st.store ++
              [{ id := i, userId := u, amount := a, fee := 0
               , status := .pending, transactionId := none
               , timestamp := now, processedAt := none }] } :
                EngineState).store.map Payout.id := by
          intro j hj
          rw [List.map_append, List.mem_append]
          push_neg
          refine ⟨hfresh j (List.mem_cons_of_mem i hj), ?_⟩
          have : j ≠ i := fun hc => hnd.1 (hc ▸ hj)
          simp [this]
        simp only [engineRunFrom, hstep]
        rw [← List.append_assoc]
        exact ih _ (tr ++ [Obs.create i a]) hinv1 hfresh1 hnd.2
    | runPayouts node now =>
      simp only [createIds] at hfresh hnd
      by_cases hpe : (st.store.filter
          fun p => p.status == PayoutStatus.pending).isEmpty
      · have hstep : engineStep cfg st (.runPayouts node now)
            = ({ st with isProcessing := false }, []) := by
          simp [engineStep, processPayouts, hflag, hpe]
        simp only [engineRunFrom, hstep]
        rw [List.nil_append]
        exact ih _ tr ⟨hsnd, hhist, hamt, hmiss, rfl⟩ hfresh hnd
      · have hpndI : ((st.store.filter
            fun p => p.status == PayoutStatus.pending).map Payout.id).Nodup :=
          List.Nodup.sublist
            (List.Sublist.map Payout.id (List.filter_sublist st.store)) hsnd
        have hpnd : (((buildBatches cfg.maxPayoutsPerBatch
            (st.store.filter fun p => p.status == PayoutStatus.pending)).flatten.map
              Payout.id)).Nodup := by
          rw [buildBatches_flatten]; exact hpndI
        have hsubB : ∀ b ∈ buildBatches cfg.maxPayoutsPerBatch
            (st.store.filter fun p => p.status == PayoutStatus.pending),
            ∀ p ∈ b, p ∈ st.store := by
          intro b hb p hp
          have hfl : p ∈ (buildBatches cfg.maxPayoutsPerBatch
              (st.store.filter fun p => p.status == PayoutStatus.pending)).flatten :=
            List.mem_flatten.mpr ⟨b, hb, hp⟩
          rw [buildBatches_flatten] at hfl
          exact List.mem_of_mem_filter hfl
        obtain ⟨ps', W, E, n, hrun, hids, hamtW, hout, htouch⟩ :=
          runBatches_spec node now
            (buildBatches cfg.maxPayoutsPerBatch
              (st.store.filter fun p => p.status == PayoutStatus.pending))
            st.store hsnd hsubB hpnd
        have hnd' : (ps'.map Payout.id).Nodup := by rw [hids]; exact hsnd
        have hstep : engineStep cfg st (.runPayouts node now)
            = ({ store := ps', isProcessing := false }, W) := by
          simp [engineStep, processPayouts, hflag, hpe, hrun]
        have hinv1 : EngineInv (tr ++ W)
            { store := ps', isProcessing := false } := by
          refine ⟨hnd', ?_, ?_, ?_, rfl⟩
          · intro p' hp'
            have hq' : payoutOf ps' p'.id = some p' :=
              payoutOf_of_mem_nodup hnd' hp'
            by_cases hmem : p'.id ∈ (buildBatches cfg.maxPayoutsPerBatch
                (st.store.filter fun p => p.status == PayoutStatus.pending)).flatten.map
                  Payout.id
            · obtain ⟨p, hpF, hpe'⟩ := List.mem_map.mp hmem
              obtain ⟨fin, hfin, hhW, q, hq, hqs, hqa⟩ := htouch p hpF
              have hqeq : q = p' := by
                rw [hpe', hq'] at hq
                exact (Option.some_inj.mp hq).symm
              have hpPend : p ∈ st.store.filter
                  fun p => p.status == PayoutStatus.pending := by
                have := hpF
                rwa [buildBatches_flatten] at this
              have hpStore : p ∈ st.store := List.mem_of_mem_filter hpPend
              have hpStatus : p.status = .pending := by
                have := List.of_mem_filter hpPend
                simpa using this
              have hps' : p'.status = fin := by rw [← hqeq, hqs]
              rw [statusHistory_append, ← hpe', hhW, hhist p hpStore,
                hpStatus, hps']
              rcases hfin with rfl | rfl <;> rfl
            · have h1 := hout p'.id hmem
              have hpo : payoutOf st.store p'.id = some p' := by
                rw [← h1.2]; exact hq'
              have hpStore : p' ∈ st.store := payoutOf_mem hpo
              rw [statusHistory_append, h1.1, hhist p' hpStore,
                List.append_nil]
          · intro p' hp'
            have hq' : payoutOf ps' p'.id = some p' :=
              payoutOf_of_mem_nodup hnd' hp'
            by_cases hmem : p'.id ∈ (buildBatches cfg.maxPayoutsPerBatch
                (st.store.filter fun p => p.status == PayoutStatus.pending)).flatten.map
                  Payout.id
            · obtain ⟨p, hpF, hpe'⟩ := List.mem_map.mp hmem
              obtain ⟨fin, hfin, hhW, q, hq, hqs, hqa⟩ := htouch p hpF
              have hqeq : q = p' := by
                rw [hpe', hq'] at hq
                exact (Option.some_inj.mp hq).symm
              have hpPend : p ∈ st.store.filter
                  fun p => p.status == PayoutStatus.pending := by
                have := hpF
                rwa [buildBatches_flatten] at this
              have hpStore : p ∈ st.store := List.mem_of_mem_filter hpPend
              have hpa : p'.amount = p.amount := by rw [← hqeq, hqa]
              rw [← hpe', amountAt_append_of_some (hamt p hpStore), hpa]
            · have h1 := hout p'.id hmem
              have hpo : payoutOf st.store p'.id = some p' := by
                rw [← h1.2]; exact hq'
              have hpStore : p' ∈ st.store := payoutOf_mem hpo
              exact amountAt_append_of_some (hamt p' hpStore) _
          · intro j hj
            simp only [] at hj
            rw [hids] at hj
            have hjW : j ∉ (buildBatches cfg.maxPayoutsPerBatch
                (st.store.filter fun p => p.status == PayoutStatus.pending)).flatten.map
                  Payout.id := by
              intro hc
              rw [buildBatches_flatten] at hc
              rcases List.mem_map.mp hc with ⟨p, hp, rfl⟩
              exact hj (List.mem_map_of_mem Payout.id
                (List.mem_of_mem_filter hp))
            refine ⟨?_, ?_⟩
            · rw [statusHistory_append, (hmiss j hj).1, (hout j hjW).1]
              rfl
            · rw [amountAt_append_of_none (hmiss j hj).2]
              exact hamtW j
        have hfresh1 : ∀ j ∈ createIds rest,
            j ∉ (({ store := ps', isProcessing := false } :
              EngineState)).store.map Payout.id := by
          intro j hj
          simp only []
          rw [hids]
          exact hfresh j hj
        simp only [engineRunFrom, hstep]
        rw [← List.append_assoc]
        exact ih _ (tr ++ W) hinv1 hfresh1 hnd

/-! ## Claim theorems -/

/-- C4: when the combined transaction construction or broadcast throws,
`processBatch` ends every payout of the batch in status `failed` — none in
`completed` — and emits one `payout:failed` event per member, all carrying
the same underlying error message. -/
theorem c4_batch_failure_all_failed (node : NodeBehavior) (ps : PayoutStore)
    (batch : List Payout) (now : Int) (e : String)
    (hnd : (ps.map Payout.id).Nodup)
    (hbnd : (batch.map Payout.id).Nodup)
    (hsub : ∀ i ∈ batch.map Payout.id, i ∈ ps.map Payout.id)
    (herr : node.createRaw (buildOutputs batch) = .error e
        ∨ ∃ raw, node.createRaw (buildOutputs batch) = .ok raw
            ∧ node.signSend raw = .error e) :
    (processBatch node ps batch now).result = .ok 0
    ∧ (processBatch node ps batch now).events
        = (batch.map Payout.id).map (fun i => .failedPayout i e)
    ∧ (∀ p ∈ batch,
        statusOf (processBatch node ps batch now).store p.id = some .failed)
    ∧ (∀ p ∈ batch,
        statusOf (processBatch node ps batch now).store p.id
          ≠ some .completed) := by
  have hproc := @markSeq_spec ps (batch.map Payout.id)
    PayoutStatus.processing none now hnd hbnd hsub
  have hgp : ∀ p : Payout,
      ((fun p => if p.id ∈ batch.map Payout.id
          then applyStatus .processing none now p else p) p).id = p.id := by
    intro p
    by_cases h : p.id ∈ batch.map Payout.id <;> simp [h, applyStatus_id]
  have hnd1 : (((ps.map fun p => if p.id ∈ batch.map Payout.id
      then applyStatus .processing none now p else p)).map Payout.id).Nodup := by
    rw [map_payoutId_map hgp]; exact hnd
  have hsub1 : ∀ i ∈ batch.map Payout.id,
      i ∈ ((ps.map fun p => if p.id ∈ batch.map Payout.id
        then applyStatus .processing none now p else p)).map Payout.id := by
    rw [map_payoutId_map hgp]; exact hsub
  have hfail := @markSeq_spec
    (ps.map fun p => if p.id ∈ batch.map Payout.id
      then applyStatus .processing none now p else p)
    (batch.map Payout.id) PayoutStatus.failed none now
    hnd1 hbnd hsub1
  have hres : processBatch node ps batch now
      = { store := ((ps.map fun p => if p.id ∈ batch.map Payout.id
            then applyStatus .processing none now p else p).map
              fun p => if p.id ∈ batch.map Payout.id
                then applyStatus .failed none now p else p)
        , writes := (batch.map Payout.id).map (fun i => .setStatus i .processing)
            ++ (batch.map Payout.id).map (fun i => .setStatus i .failed)
        , events := (batch.map Payout.id).map (fun i => .failedPayout i e)
        , result := .ok 0 } := by
    rcases herr with h | ⟨raw, h1, h2⟩
    · simp only [processBatch, hproc, h, hfail, List.nil_append]
    · simp only [processBatch, hproc, h1, h2, hfail, List.nil_append]
  have hgf : ∀ p : Payout,
      ((fun p => if p.id ∈ batch.map Payout.id
          then applyStatus .failed none now p else p) p).id = p.id := by
    intro p
    by_cases h : p.id ∈ batch.map Payout.id <;> simp [h, applyStatus_id]
  have hstat : ∀ p ∈ batch,
      statusOf (processBatch node ps batch now).store p.id = some .failed := by
    intro p hp
    have hpid : p.id ∈ batch.map Payout.id := List.mem_map_of_mem Payout.id hp
    obtain ⟨q, hq⟩ := payoutOf_exists_of_mem_ids (hsub _ hpid)
    have hqid : q.id = p.id := payoutOf_eq_some_id hq
    have hex : q.id ∈ batch.map Payout.id := by rw [hqid]; exact hpid
    rw [hres]
    unfold statusOf
    rw [payoutOf_map hgf, payoutOf_map hgp, hq]
    simp only [Option.map_some', hex, applyStatus_id, if_true,
      applyStatus_status]
  refine ⟨by rw [hres], by rw [hres], hstat, ?_⟩
  intro p hp
  rw [hstat p hp]
  simp

/-- C4 witness: a three-payout batch whose broadcast throws ends with all
three payouts failed and three `payout:failed` events carrying the same
reason. -/
theorem c4_batch_failure_all_failed_witness :
    (processBatch nodeBroadcastFails [pxA, pxB, pxC] [pxA, pxB, pxC] 5).result
        = .ok 0
    ∧ (processBatch nodeBroadcastFails [pxA, pxB, pxC] [pxA, pxB, pxC] 5).events
        = [.failedPayout "po1" "broadcast failed: insufficient funds",
           .failedPayout "po2" "broadcast failed: insufficient funds",
           .failedPayout "po3" "broadcast failed: insufficient funds"]
    ∧ statusOf (processBatch nodeBroadcastFails [pxA, pxB, pxC]
        [pxA, pxB, pxC] 5).store "po1" = some .failed
    ∧ statusOf (processBatch nodeBroadcastFails [pxA, pxB, pxC]
        [pxA, pxB, pxC] 5).store "po1" ≠ some .completed := by
  have h := c4_batch_failure_all_failed nodeBroadcastFails [pxA, pxB, pxC]
    [pxA, pxB, pxC] 5 "broadcast failed: insufficient funds"
    (by simp [pxA, pxB, pxC])
    (by simp [pxA, pxB, pxC])
    (fun i hi => hi)
    (Or.inr ⟨"rawtx", rfl, rfl⟩)
  refine ⟨h.1, ?_, ?_, ?_⟩
  · rw [h.2.1]; simp [pxA, pxB, pxC]
  · exact h.2.2.1 pxA (by simp)
  · exact h.2.2.2 pxA (by simp)

/-- C1: when the reward window holds valid shares with nonzero total
difficulty, `calculateBlockRewards` yields the pool fee
`blockReward * feePercent/100` and a reward map in which every miner gets
`(blockReward - fee) * (minerDifficultySum / totalDifficulty)`, the rewards
over the window's miners sum exactly to `blockReward - fee`, and a miner
with no valid share in the window gets zero. -/
theorem c1_block_reward_split (shares : List Share)
    (blockReward feePercent : ℚ) (now : Int)
    (hne : rewardWindowShares shares now ≠ [])
    (htot : totalDiff (rewardWindowShares shares now) ≠ 0) :
    calculateBlockRewards shares blockReward feePercent now
      = some (blockReward * (feePercent / 100),
          rewardsFn (rewardWindowShares shares now) blockReward feePercent)
    ∧ (∀ w, rewardsFn (rewardWindowShares shares now) blockReward feePercent w
        = (blockReward - blockReward * (feePercent / 100))
            * (minerDifficultySum (rewardWindowShares shares now) w
                / totalDiff (rewardWindowShares shares now)))
    ∧ (∑ w in workersOf (rewardWindowShares shares now),
          rewardsFn (rewardWindowShares shares now) blockReward feePercent w
        = blockReward - blockReward * (feePercent / 100))
    ∧ (∀ w, w ∉ workersOf (rewardWindowShares shares now) →
        rewardsFn (rewardWindowShares shares now) blockReward feePercent w = 0) := by
  refine ⟨?_, fun w => rfl, ?_, ?_⟩
  · simp [calculateBlockRewards, List.isEmpty_iff, hne]
  · calc ∑ w in workersOf (rewardWindowShares shares now),
          rewardsFn (rewardWindowShares shares now) blockReward feePercent w
        = ∑ w in workersOf (rewardWindowShares shares now),
            (blockReward - blockReward * (feePercent / 100))
              / totalDiff (rewardWindowShares shares now)
              * minerDifficultySum (rewardWindowShares shares now) w := by
          exact Finset.sum_congr rfl fun w _ => by
            simp only [rewardsFn]; ring
      _ = (blockReward - blockReward * (feePercent / 100))
            / totalDiff (rewardWindowShares shares now)
            * ∑ w in workersOf (rewardWindowShares shares now),
                minerDifficultySum (rewardWindowShares shares now) w := by
          rw [Finset.mul_sum]
      _ = blockReward - blockReward * (feePercent / 100) := by
          rw [sum_minerDifficultySum, div_mul_cancel₀ _ htot]
  · intro w hw
    simp [rewardsFn, minerDifficultySum_eq_zero hw]

/-- C1 witness: pool fee 1 %, block reward 6.25, one 300-difficulty share
from miner A and one 100-difficulty share from miner B in the window: the
fee is 0.0625, miner A receives 4.640625 and miner B 1.546875, and their
sum is the 6.1875 reward after fee. -/
theorem c1_block_reward_split_witness :
    calculateBlockRewards [shMinerA, shMinerB] (25/4) 1 2000
      = some ((25:ℚ)/4 * ((1:ℚ) / 100),
          rewardsFn (rewardWindowShares [shMinerA, shMinerB] 2000) (25/4) 1)
    ∧ (25:ℚ)/4 * ((1:ℚ) / 100) = 0.0625
    ∧ rewardsFn (rewardWindowShares [shMinerA, shMinerB] 2000) (25/4) 1 "minerA"
        = 4.640625
    ∧ rewardsFn (rewardWindowShares [shMinerA, shMinerB] 2000) (25/4) 1 "minerB"
        = 1.546875 := by
  have hwin : rewardWindowShares [shMinerA, shMinerB] 2000
      = [shMinerA, shMinerB] := by
    simp [rewardWindowShares, getPoolValidShares, rewardWindowMs, shMinerA,
      shMinerB]
  have h := c1_block_reward_split [shMinerA, shMinerB] (25/4) 1 2000
    (by rw [hwin]; simp)
    (by rw [hwin]; norm_num [totalDiff, shMinerA, shMinerB])
  refine ⟨h.1, by norm_num, ?_, ?_⟩
  · rw [h.2.1 "minerA", hwin]
    norm_num [minerDifficultySum, totalDiff, shMinerA, shMinerB,
      List.filter_cons, (by decide : ¬ ("minerB" = "minerA")),
      (by decide : ¬ ("minerA" = "minerB"))]
  · rw [h.2.1 "minerB", hwin]
    norm_num [minerDifficultySum, totalDiff, shMinerA, shMinerB,
      List.filter_cons, (by decide : ¬ ("minerB" = "minerA")),
      (by decide : ¬ ("minerA" = "minerB"))]

/-- C8 (counterexample): for a single valid share of difficulty 1 the
emitted hashrate is `4.295e9 / 600`, which differs from the claimed
`2^32 / 600 = 4294967296 / 600`. -/
theorem c8_hashrate_factor_counterexample :
    calculateHashrates [shUnit] "w1" 0 = some (4295000000 / 600)
    ∧ (4295000000 / 600 : ℚ) ≠ 4294967296 / 600 := by
  constructor
  · norm_num [calculateHashrates, getWorkerValidShares, hashrateWindowMs,
      totalDiff, hashrateFactor, shUnit]
  · norm_num

/-- C8 (amended): the hashrate emitted after each valid share is the sum of
the difficulties of the valid shares in the trailing 10-minute window
multiplied by `4.295e9` (the source's rounding of 2^32) and divided by the
600-second window length, for a single miner and for the pool alike. -/
theorem c8_hashrate_formula (shares : List Share) (w : String) (now : Int)
    (h : getWorkerValidShares shares w (now - hashrateWindowMs) now ≠ []) :
    calculateHashrates shares w now
      = some (totalDiff (getWorkerValidShares shares w (now - hashrateWindowMs) now)
          * 4295000000 / 600)
    ∧ calculatePoolHashrate shares now
      = totalDiff (getPoolValidShares shares (now - hashrateWindowMs) now)
          * 4295000000 / 600 := by
  have htw : ((now - (now - hashrateWindowMs) : Int) : ℚ) / 1000 = 600 := by
    have h1 : now - (now - hashrateWindowMs) = 600000 := by
      simp [hashrateWindowMs]
    rw [h1]; norm_num
  constructor
  · simp only [calculateHashrates, htw, hashrateFactor]
    rw [if_neg (by simpa [List.isEmpty_iff] using h)]
  · simp only [calculatePoolHashrate, htw, hashrateFactor]
    by_cases hp : getPoolValidShares shares (now - hashrateWindowMs) now = []
    · rw [if_pos (by simpa [List.isEmpty_iff] using hp), hp]
      simp [totalDiff_nil]
    · rw [if_neg (by simpa [List.isEmpty_iff] using hp)]

/-- C8 witness: the amended formula evaluated on the single unit-difficulty
share. -/
theorem c8_hashrate_formula_witness :
    calculateHashrates [shUnit] "w1" 0
      = some (totalDiff (getWorkerValidShares [shUnit] "w1" (0 - hashrateWindowMs) 0)
          * 4295000000 / 600) :=
  (c8_hashrate_formula [shUnit] "w1" 0
    (by simp [getWorkerValidShares, hashrateWindowMs, shUnit])).1

/-- C2 (counterexample evaluation): a batch of two payouts to the same
address: `buildOutputs` keeps only the later amount, the output total is 2
while the batch total is 3, and the address is paid 2 instead of 1 + 2 —
the first payout's credit is silently lost. -/
theorem c2_outputs_lose_credit :
    buildOutputs [pxA, pxB] = [("addr1", 2)]
    ∧ outputsTotal (buildOutputs [pxA, pxB]) = 2
    ∧ payoutsTotal [pxA, pxB] = 3
    ∧ outputsTotal (buildOutputs [pxA, pxB]) ≠ payoutsTotal [pxA, pxB]
    ∧ outputsFor (buildOutputs [pxA, pxB]) "addr1"
        ≠ payoutsTotalFor [pxA, pxB] "addr1" := by
  refine ⟨?_, ?_, ?_, ?_, ?_⟩ <;>
    norm_num [buildOutputs, setOutput, outputsTotal, payoutsTotal,
      outputsFor, payoutsTotalFor, pxA, pxB]

/-- C3 (counterexample): with current job counter 2, a submission naming
the immediately preceding job `1` is rejected even with a passing
proof-of-work check, while the current job `2` is not. -/
theorem c3_previous_job_rejected :
    validateShare 2 "1" true = false ∧ validateShare 2 "2" true = true := by
  refine ⟨by decide, by decide⟩

/-- C3 (amended): a submission is accepted exactly when its jobId equals
the current job's id and the proof-of-work check passes; every other jobId
— including the immediately preceding one — is rejected as invalid, and the
handler never disconnects the session. -/
theorem c3_only_current_job_accepted (st : ServerState) (c : ClientInfo)
    (wn jid : String) (powOk : Bool) (now : Int) :
    (handleSubmit st c wn jid powOk now).disconnected = false
    ∧ ((handleSubmit st c wn jid powOk now).accepted = true
        ↔ jid = toString st.jobId ∧ powOk = true) := by
  refine ⟨rfl, ?_⟩
  by_cases h : jid = toString st.jobId <;>
    simp [handleSubmit, validateShare, h]

/-- C5: along any sequence of engine operations whose generated payout ids
are unique, every payout id's observed status sequence is a prefix of
`pending → processing → completed` or `pending → processing → failed` —
it never returns to pending and never leaves a terminal status — and at
every point of the run each stored payout still carries its creation
amount. -/
theorem c5_payout_lifecycle (cfg : PMConfig) (ops : List EngineOp)
    (h : (createIds ops).Nodup) :
    (∀ i, statusHistory (engineRun cfg ops).2 i ∈ allowedHistories)
    ∧ ∀ n, ∀ p ∈ (engineRun cfg (ops.take n)).1.store,
        amountAt (engineRun cfg (ops.take n)).2 p.id = some p.amount := by
  have hinv0 : EngineInv [] initialEngine := by
    refine ⟨by simp [initialEngine], ?_, ?_, ?_, rfl⟩
    · intro p hp; simp [initialEngine] at hp
    · intro p hp; simp [initialEngine] at hp
    · intro j _; exact ⟨rfl, rfl⟩
  have key : ∀ (ops' : List EngineOp), (createIds ops').Nodup →
      EngineInv (engineRun cfg ops').2 (engineRun cfg ops').1 := by
    intro ops' hnd'
    have hk := engineRunFrom_inv cfg ops' initialEngine [] hinv0
      (fun i _ hc => absurd hc (by simp [initialEngine])) hnd'
    simpa [engineRun] using hk
  constructor
  · intro i
    obtain ⟨hsnd, hhist, hamt, hmiss, _⟩ := key ops h
    by_cases hmem : i ∈ (engineRun cfg ops).1.store.map Payout.id
    · obtain ⟨p, hp, rfl⟩ := List.mem_map.mp hmem
      rw [hhist p hp]
      cases p.status <;> decide
    · rw [(hmiss i hmem).1]
      decide
  · intro n p hp
    have hnd' : (createIds (ops.take n)).Nodup := by
      rw [← List.take_append_drop n ops, createIds_append] at h
      exact h.of_append_left
    obtain ⟨_, _, hamt, _, _⟩ := key (ops.take n) hnd'
    exact hamt p hp

/-- C5 witness: the lifecycle theorem applied to a concrete run with two
creations followed by a successful payout cycle. -/
theorem c5_payout_lifecycle_witness :
    (createIds opsW).Nodup
    ∧ statusHistory (engineRun cfgW opsW).2 "p1" ∈ allowedHistories :=
  ⟨by decide, (c5_payout_lifecycle cfgW opsW (by decide)).1 "p1"⟩

/-- C6: when the single-flight `isProcessing` flag is set, `processPayouts`
returns 0, performs no storage write, emits no event, leaves the state
unchanged, and its outcome is independent of the node (no RPC call can
influence it). -/
theorem c6_single_flight_guard (cfg : PMConfig) (node : NodeBehavior)
    (st : EngineState) (now : Int) (h : st.isProcessing = true) :
    processPayouts cfg node st now
      = { state := st, writes := [], events := [], result := .ok 0 }
    ∧ ∀ node', processPayouts cfg node st now
        = processPayouts cfg node' st now := by
  constructor
  · simp [processPayouts, h]
  · intro node'
    simp [processPayouts, h]

/-- C6 witness: a concrete engine state with the flag set is left
untouched. -/
theorem c6_single_flight_guard_witness :
    processPayouts ⟨1/1000, 50⟩ nodeOk ⟨[pxA], true⟩ 0
      = { state := ⟨[pxA], true⟩, writes := [], events := [], result := .ok 0 } :=
  (c6_single_flight_guard ⟨1/1000, 50⟩ nodeOk ⟨[pxA], true⟩ 0 rfl).1

/-- C7 (failing-input evaluation): two connections for which the random
generator returns the same four bytes leave two open sessions with the same
extraNonce1 — the claimed pairwise distinctness fails on this outcome of
the generator. -/
theorem c7_extranonce_collision :
    ((handleConnection (handleConnection emptyRegistry "1.1.1.1:51001" "00000000")
        "2.2.2.2:52002" "00000000").clients.map Prod.snd)
      = ["00000000", "00000000"]
    ∧ ¬ noncesDistinct
        (handleConnection (handleConnection emptyRegistry "1.1.1.1:51001" "00000000")
          "2.2.2.2:52002" "00000000") := by
  refine ⟨by decide, by decide⟩

/-- C9: a discarded line (malformed JSON or an unknown method) leaves the
session state — subscribed, authorized, connected flags — unchanged, emits
nothing, and the read loop continues with the remaining lines exactly as if
the bad line had not been received. -/
theorem c9_bad_line_survives (c : ClientState) (m : StratumMsg)
    (rest : List StratumMsg) (h : discarded m = true) :
    handleMessage c m = (c, [])
    ∧ processLines c (m :: rest) = processLines c rest := by
  have hm : handleMessage c m = (c, []) := by
    cases m <;> simp_all [discarded, handleMessage]
  refine ⟨hm, ?_⟩
  simp [processLines, hm]

/-- C9 witness: a malformed line before a subscribe is dropped and the
subscribe still goes through. -/
theorem c9_bad_line_survives_witness :
    discarded (StratumMsg.malformed "this is not json") = true
    ∧ processLines ⟨false, false, "", true⟩
        [StratumMsg.malformed "this is not json", StratumMsg.subscribe]
      = processLines ⟨false, false, "", true⟩ [StratumMsg.subscribe] :=
  ⟨rfl, (c9_bad_line_survives ⟨false, false, "", true⟩
      (StratumMsg.malformed "this is not json") [StratumMsg.subscribe] rfl).2⟩

/-- C10: every share record built by `handleSubmit` carries the server's
single pool-wide `difficulty` — the same value for every session, initially
1, replaced by the node's value on the 60-second difficulty poll — and not
the per-session difficulty, which `StratumClient.start` announces as the
constant 8. -/
theorem c10_share_difficulty_is_pool_wide (st : ServerState)
    (c c' : ClientInfo) (wn wn' jid jid' : String) (powOk powOk' : Bool)
    (now now' : Int) :
    (handleSubmit st c wn jid powOk now).share.difficulty = st.difficulty
    ∧ (handleSubmit st c wn jid powOk now).share.difficulty
        = (handleSubmit st c' wn' jid' powOk' now').share.difficulty
    ∧ initialServer.difficulty = 1
    ∧ (∀ d, (pollDifficulty st (.ok d)).difficulty = d)
    ∧ difficultyPollIntervalMs = 60000
    ∧ clientStartMessages = [("mining.set_difficulty", [8])] := by
  refine ⟨rfl, rfl, rfl, fun d => rfl, rfl, rfl⟩

end MiningPool
